import Mathlib

/-!
# Verification development for `inferret/infer`

A shallow embedding of the Go sources

* `internal/parser/parser.go`  (`ParseInferfile`, `attachCodeToTags`),
* `internal/executor/executor.go` (`Executor.Execute`),
* `cmd/infer/infer.go` (`runInference`),

followed by theorems about them.

Conventions of the embedding:

* a Go `string` is its sequence of bytes, `List Nat` (every byte is a number
  below 256; the theorems do not need that bound);
* a Go `error` is represented by its message;
* a Go `int` is an `Int`; where the 64 bit range matters it is a hypothesis;
* a Go `float64` is a value of `Float64` below: NaN, an infinity or a signed
  dyadic number, with IEEE 754 round-to-nearest-even conversion and division;
* the outside world (file system, HCL library, JSON decoder, chat client) is
  passed in as parameters.
-/

set_option autoImplicit false
set_option maxRecDepth 20000

namespace Infer

/-! ## Go strings -/

/-- A Go string: a sequence of bytes. -/
abbrev GoString := List Nat

/-- The UTF-8 encoding of one character. -/
def utf8Bytes (c : Char) : List Nat :=
  let n := c.toNat
  if n < 128 then [n]
  else if n < 2048 then [192 + n / 64, 128 + n % 64]
  else if n < 65536 then [224 + n / 4096, 128 + n / 64 % 64, 128 + n % 64]
  else [240 + n / 262144, 128 + n / 4096 % 64, 128 + n / 64 % 64, 128 + n % 64]

/-- The Go string denoted by a string literal of the source. -/
def lit (s : String) : GoString := s.toList.flatMap utf8Bytes

/-- Go `strings.HasPrefix(s, p)`. -/
def HasPrefix : GoString → GoString → Bool
  | _, [] => true
  | [], _ :: _ => false
  | c :: s, d :: p => c == d && HasPrefix s p

/-- Go `strings.Contains(s, substr)`: `substr` occurs at some offset of `s`. -/
def Contains : GoString → GoString → Bool
  | [], substr => HasPrefix [] substr
  | c :: s, substr => HasPrefix (c :: s) substr || Contains s substr

/-- The text of `s` before its first newline (byte 10), and the lines of what
follows that newline. -/
def splitLines : GoString → GoString × List GoString
  | [] => ([], [])
  | c :: s =>
    let r := splitLines s
    if c = 10 then ([], r.1 :: r.2) else (c :: r.1, r.2)

/-- Go `strings.Split(s, "\n")`: never empty, `""` gives `[""]`, a trailing
newline gives a last empty line. -/
def Split (s : GoString) : List GoString :=
  (splitLines s).1 :: (splitLines s).2

/-- Decimal digits of a natural number, most significant first, with fuel. -/
def decimalAux : Nat → Nat → List Nat → List Nat
  | 0, _, acc => acc
  | fuel + 1, n, acc =>
    if n < 10 then (48 + n) :: acc else decimalAux fuel (n / 10) ((48 + n % 10) :: acc)

/-- Go `%d` formatting of an `int`. -/
def formatInt (n : Int) : GoString :=
  if n < 0 then 45 :: decimalAux (n.natAbs + 1) n.natAbs []
  else decimalAux (n.natAbs + 1) n.natAbs []

/-! ## `float64` values -/

/-- A Go `float64` value: NaN, plus or minus infinity, or the finite number
`(-1)^neg * m * 2^e` (a zero mantissa with `neg` set is negative zero). -/
inductive Float64 where
  | nan : Float64
  | inf (neg : Bool) : Float64
  | fin (neg : Bool) (m : Nat) (e : Int) : Float64
  deriving DecidableEq

/-! ## `float64` arithmetic (IEEE 754 binary64, round to nearest, ties to even) -/

namespace Float64

/-- Number of binary digits of `n`, with fuel. -/
def bitLenAux : Nat → Nat → Nat
  | 0, _ => 0
  | fuel + 1, n => if n = 0 then 0 else bitLenAux fuel (n / 2) + 1

/-- Number of binary digits of `n` (`0` for `0`). -/
def bitLen (n : Nat) : Nat := bitLenAux n n

/-- For positive `p` and `d`: the integer `t` with `2^t ≤ p/d < 2^(t+1)`. -/
def ilog2Ratio (p d : Nat) : Int :=
  let t : Int := (bitLen p : Int) - (bitLen d : Int)
  if d * 2 ^ t.toNat ≤ p * 2 ^ (-t).toNat then t else t - 1

/-- The exponent of the quantum for the positive rational `p / d`: it leaves
53 significant bits, but is not below `-1074` (subnormal range). -/
def quantum (p d : Nat) : Int := max (ilog2Ratio p d - 52) (-1074)

/-- The integer nearest to `num / den`, ties to even. -/
def nearestEven (num den : Nat) : Nat :=
  let q := num / den
  let r := num % den
  if den < 2 * r ∨ (2 * r = den ∧ q % 2 = 1) then q + 1 else q

/-- The `float64` of sign `neg` and magnitude `q * 2^E`, for a rounded mantissa
`q ≤ 2^53`: a magnitude of `2^1024` or more overflows to infinity, a mantissa
rounded up to `2^53` is renormalised. -/
def pack (neg : Bool) (q : Nat) (E : Int) : Float64 :=
  if 1024 < (bitLen q : Int) + E then inf neg
  else if q = 2 ^ 53 then fin neg (2 ^ 52) (E + 1)
  else fin neg q E

/-- The binary64 number nearest to the positive rational `p / d`, ties to
even, with sign `neg`: `p / d` is rounded to a multiple of its quantum. -/
def roundPos (neg : Bool) (p d : Nat) : Float64 :=
  let E := quantum p d
  pack neg (nearestEven (p * 2 ^ (-E).toNat) (d * 2 ^ E.toNat)) E

/-- Go conversion `float64(n)` of an `int`. -/
def ofInt (n : Int) : Float64 :=
  if n = 0 then fin false 0 0 else roundPos (decide (n < 0)) n.natAbs 1

/-- The binary64 number nearest to the rational `p / d` (`d` positive): the
value of a decimal constant such as `0.67 = 67 / 100`. -/
def ofRatio (p d : Nat) : Float64 :=
  if p = 0 then fin false 0 0 else roundPos false p d

/-- Go `x / y` on `float64`. -/
def div : Float64 → Float64 → Float64
  | nan, _ => nan
  | _, nan => nan
  | inf _, inf _ => nan
  | inf s, fin t _ _ => inf (xor s t)
  | fin s _ _, inf t => fin (xor s t) 0 0
  | fin s m1 e1, fin t m2 e2 =>
    if m2 = 0 then (if m1 = 0 then nan else inf (xor s t))
    else if m1 = 0 then fin (xor s t) 0 0
    else roundPos (xor s t) (m1 * 2 ^ (e1 - e2).toNat) (m2 * 2 ^ (e2 - e1).toNat)

/-- The integer `(-1)^neg * m * 2^(e - e0)`, for `e0 ≤ e`. -/
def scaled (neg : Bool) (m : Nat) (e e0 : Int) : Int :=
  if neg then -((m * 2 ^ (e - e0).toNat : Nat) : Int) else ((m * 2 ^ (e - e0).toNat : Nat) : Int)

/-- Go `x < y` on `float64`: false when either side is NaN. -/
def lt : Float64 → Float64 → Bool
  | nan, _ => false
  | _, nan => false
  | inf s, inf t => s && !t
  | inf s, fin _ _ _ => s
  | fin _ _ _, inf t => !t
  | fin s m1 e1, fin t m2 e2 =>
    decide (scaled s m1 e1 (min e1 e2) < scaled t m2 e2 (min e1 e2))

/-- Go `x <= y` on `float64`: false when either side is NaN. -/
def le : Float64 → Float64 → Bool
  | nan, _ => false
  | _, nan => false
  | inf s, inf t => s || !t
  | inf s, fin _ _ _ => s
  | fin _ _ _, inf t => !t
  | fin s m1 e1, fin t m2 e2 =>
    decide (scaled s m1 e1 (min e1 e2) ≤ scaled t m2 e2 (min e1 e2))

/-- Go `x >= y` on `float64`. -/
def ge (x y : Float64) : Bool := le y x

end Float64

/-! ## `internal/parser/parser.go` -/

/-- The struct `Inference`. -/
structure Inference where
  Assertion : GoString
  Model : GoString
  Count : Int
  Threshold : Float64
  MaxTokens : Int
  Temperature : Float64
  Tag_Name : GoString
  deriving DecidableEq

/-- The struct `Tag`. -/
structure Tag where
  Name : GoString
  Inferences : List Inference
  Code : GoString
  deriving DecidableEq

/-- The struct `File`. -/
structure File where
  Path : GoString
  Tags : List Tag
  deriving DecidableEq

/-- The struct `InferConfiguration`. -/
structure InferConfiguration where
  Files : List File
  deriving DecidableEq

/-- The inner `for _, line := range lines` loop of `attachCodeToTags` for one
tag name: `inTagBlock` and the contents of `tagBuilder` are threaded through;
the result is the final contents of `tagBuilder`. -/
def scanLines (name : GoString) : List GoString → Bool → GoString → GoString
  | [], _, tagBuilder => tagBuilder
  | line :: rest, inTagBlock, tagBuilder =>
    if Contains line (lit "Infer: " ++ name) then
      scanLines name rest true tagBuilder            -- inTagBlock = true; continue
    else if Contains line (lit "EndInfer: " ++ name) then
      tagBuilder                                     -- inTagBlock = false; break
    else if inTagBlock then
      scanLines name rest inTagBlock (tagBuilder ++ (line ++ lit "\n"))
    else
      scanLines name rest inTagBlock tagBuilder

/-- The body of the `for i := range file.Tags` loop: the tag with its `Code`
replaced by what the scan collected. -/
def attachCodeToTag (lines : List GoString) (tag : Tag) : Tag :=
  { tag with Code := scanLines tag.Name lines false [] }

/-- Go `attachCodeToTags`; `readFile` is `ioutil.ReadFile`. The updated file is
returned instead of being written through the pointer. -/
def attachCodeToTags (readFile : GoString → Except GoString GoString) (file : File) :
    Except GoString File :=
  match readFile file.Path with
  | .error err => .error err
  | .ok source =>
    let lines := Split source
    .ok { file with Tags := file.Tags.map (attachCodeToTag lines) }

/-- What `ParseInferfile` reads of a block of the `hclsyntax.Body`: its `Type`
(a keyword here, hence `BlockType`), its `Labels` and `DefRange().Start.Line`. -/
structure Block where
  BlockType : GoString
  Labels : List GoString
  Line : Int
  deriving DecidableEq

/-- The inner `for _, block := range syntaxBody.Blocks` loop of the existence
check: the error for the first `file` block labelled `path`, if any. -/
def findFileBlock (path : GoString) : List Block → Option GoString
  | [] => none
  | block :: rest =>
    if block.BlockType = lit "file" ∧ block.Labels.length > 0 ∧ block.Labels.head? = some path then
      some (lit "file not found: " ++ path ++ lit " (Inferfile line: " ++
        formatInt block.Line ++ lit ")")
    else findFileBlock path rest

/-- The loop `for _, file := range config.Files` of the existence check;
`notExist path` is `os.IsNotExist(err)` for the `err` of `os.Stat(path)`. -/
def checkFilesExist (notExist : GoString → Bool) (blocks : List Block) :
    List File → Option GoString
  | [] => none
  | file :: rest =>
    if notExist file.Path then
      match findFileBlock file.Path blocks with
      | some err => some err
      | none => checkFilesExist notExist blocks rest
    else checkFilesExist notExist blocks rest

/-- The loop `for i, file := range config.Files` that attaches the code. -/
def attachAll (readFile : GoString → Except GoString GoString) :
    List File → Except GoString (List File)
  | [] => .ok []
  | file :: rest =>
    match attachCodeToTags readFile file with
    | .error err => .error err
    | .ok file' =>
      match attachAll readFile rest with
      | .error err => .error err
      | .ok rest' => .ok (file' :: rest')

/-- What `hclparse` and `gohcl` hand to `ParseInferfile` when both succeed: the
decoded configuration and, when the body is an `*hclsyntax.Body`, its blocks. -/
structure Parsed where
  config : InferConfiguration
  syntaxBody : Option (List Block)

/-- Go `ParseInferfile`. `parsed` is the outcome of `ParseHCLFile` followed by
`gohcl.DecodeBody` on the file (an error stands for diagnostics with errors of
either step). -/
def ParseInferfile (parsed : Except GoString Parsed) (notExist : GoString → Bool)
    (readFile : GoString → Except GoString GoString) : Except GoString InferConfiguration :=
  match parsed with
  | .error diags => .error diags
  | .ok p =>
    match p.syntaxBody with
    | none => .error (lit "file body is not hclsyntax.Body")
    | some blocks =>
      match checkFilesExist notExist blocks p.config.Files with
      | some err => .error err
      | none =>
        match attachAll readFile p.config.Files with
        | .error err => .error err
        | .ok files => .ok { Files := files }

/-- The stub file written by `TestParseInferfileWithStubFile`. -/
def stubGoCode : GoString :=
  lit "package main\n\n// Infer: OpenAI client\nfunc openaiClient() \x7b\n\t// This is a stub function\n\x7d\n// EndInfer: OpenAI client\n"

/-! ## `internal/executor/executor.go` -/

/-- The fields of `openai.ChatCompletionMessage` that `Execute` sets. -/
structure ChatCompletionMessage where
  Role : GoString
  Content : GoString
  deriving DecidableEq

/-- The arguments of one `CreateChatCompletion` call. -/
structure ChatRequest where
  Messages : List ChatCompletionMessage
  Model : GoString
  MaxTokens : Int
  Temperature : Float64
  deriving DecidableEq

/-- The collaborators of `Execute`. `CreateChatCompletion n req` is what the
`n`-th call (counted from 0) of one `Execute` returns for the request `req`: an
error, or the `Message.Content` of each of the `Choices`. `Unmarshal content`
is `json.Unmarshal` into a `jsonResponse`: an error, or the `Assertion` field. -/
structure Oracle where
  CreateChatCompletion : Nat → ChatRequest → Except GoString (List GoString)
  Unmarshal : GoString → Except GoString Bool

/-- The `messages` slice built in the loop body of `Execute`. -/
def messages (inference : Inference) (code : GoString) : List ChatCompletionMessage :=
  let tag := inference.Tag_Name
  [ { Role := lit "system",
      Content := lit "Here is a code block tagged as [" ++ tag ++
        lit "]. Please analyze the following code: \n\n" ++ code },
    { Role := lit "system",
      Content := lit "Based on the code analysis, answer the following question with a JSON-formatted boolean response in the format: ```\x7b\"assertion\": true\x7d```." },
    { Role := lit "user",
      Content := lit "Is the following assertion about the code true? " ++ inference.Assertion } ]

/-- The request `Execute` sends in every iteration. -/
def request (inference : Inference) (code : GoString) : ChatRequest :=
  { Messages := messages inference code, Model := inference.Model,
    MaxTokens := inference.MaxTokens, Temperature := inference.Temperature }

/-- The loop `for i := 0; i < totalCount; i++` of `Execute`, from the state
`i`, `successCount`, with `fuel` bounding the remaining iterations. The result
is the error of an early `return false, err`, or the final `successCount`,
together with the number of `CreateChatCompletion` calls made so far (one per
iteration entered, so it is `i` again, or `i + 1` on an early return). -/
def executeLoop (o : Oracle) (inference : Inference) (code : GoString) :
    Nat → Nat → Int → Except GoString Int × Nat
  | 0, i, successCount => (.ok successCount, i)
  | fuel + 1, i, successCount =>
    if (i : Int) < inference.Count then
      match o.CreateChatCompletion i (request inference code) with
      | .error err => (.error (lit "chat completion error: " ++ err), i + 1)
      | .ok [] => (.error (lit "no choices in completion response"), i + 1)
      | .ok (content :: _) =>
        match o.Unmarshal content with
        | .error err => (.error (lit "failed to unmarshal response JSON: " ++ err), i + 1)
        | .ok assertion =>
          executeLoop o inference code fuel (i + 1)
            (if assertion then successCount + 1 else successCount)
    else (.ok successCount, i)

/-- What `Execute` returns, `(passed, err)`, and the number of oracle calls it
made. -/
structure ExecResult where
  passed : Bool
  err : Option GoString
  calls : Nat
  deriving DecidableEq

/-- Go `Executor.Execute` (the verbose printing is left out). -/
def Execute (o : Oracle) (inference : Inference) (code : GoString) : ExecResult :=
  let totalCount := inference.Count
  match executeLoop o inference code totalCount.toNat 0 0 with
  | (.error err, calls) => { passed := false, err := some err, calls := calls }
  | (.ok successCount, calls) =>
    let successRate := Float64.div (Float64.ofInt successCount) (Float64.ofInt totalCount)
    if Float64.lt successRate inference.Threshold then
      { passed := false, err := none, calls := calls }
    else
      { passed := true, err := none, calls := calls }

/-! ## `cmd/infer/infer.go` -/

/-- Where a worker goroutine of `runInference` stands: before
`semaphore <- struct{}{}`, before `exec.Execute`, before `<-semaphore`, before
the `if err != nil ... else if !result ...` that may send on `errChan`, and
after `wg.Done()`. -/
inductive WorkerPC where
  | acquire | execute | release | report | done
  deriving DecidableEq

/-- One goroutine started by `runInference`: the unit it runs, numbered in
document order, and its program counter. -/
structure Worker where
  id : Nat
  inference : Inference
  code : GoString
  pc : WorkerPC
  deriving DecidableEq

/-- Where the main goroutine stands: before `wg.Wait()` returns, or returned
with the collected `errors`. -/
inductive MainPC where
  | waiting
  | returned (errors : List GoString)
  deriving DecidableEq

/-- The shared state of `runInference` after the three nested loops have
started the goroutines: the workers, the number of tokens in `semaphore`, the
buffer of `errChan`, the main goroutine. -/
structure RunState where
  workers : List Worker
  semaphore : Nat
  errChan : List GoString
  main : MainPC
  deriving DecidableEq

/-- The fixed data of a run: the capacities of the two channels and the result
`exec.Execute` returns in each unit. -/
structure RunConfig where
  parallelThreads : Nat
  errChanCap : Nat
  exec : Nat → Inference → GoString → ExecResult

/-- The units `(inference, tag.Code)` in the order of the three nested loops. -/
def units (config : InferConfiguration) : List (Inference × GoString) :=
  config.Files.flatMap fun file =>
    file.Tags.flatMap fun tag =>
      tag.Inferences.map fun inference => (inference, tag.Code)

/-- Numbering of the units from `n`. -/
def spawn : Nat → List (Inference × GoString) → List Worker
  | _, [] => []
  | n, (inference, code) :: rest =>
    { id := n, inference := inference, code := code, pc := .acquire } :: spawn (n + 1) rest

/-- The state in which `runInference` reaches `wg.Wait()`. -/
def initState (config : InferConfiguration) : RunState :=
  { workers := spawn 0 (units config), semaphore := 0, errChan := [], main := .waiting }

/-- The channel capacities `runInference` chooses:
`make(chan error, len(config.Files))` and `make(chan struct{}, parallelThreads)`. -/
def runConfig (config : InferConfiguration) (parallelThreads : Nat)
    (exec : Nat → Inference → GoString → ExecResult) : RunConfig :=
  { parallelThreads := parallelThreads, errChanCap := config.Files.length, exec := exec }

/-- What a worker sends on `errChan` for the result of its `Execute`, if
anything. -/
def reportOf (inference : Inference) (r : ExecResult) : Option GoString :=
  match r.err with
  | some err => some err
  | none => if !r.passed then some (lit "Inference failed: " ++ inference.Assertion) else none

/-- One step of a worker goroutine, given the semaphore and the `errChan`
buffer; `none` when the goroutine is blocked (a send on a full channel) or has
finished. -/
def workerStep (cfg : RunConfig) (w : Worker) (semaphore : Nat) (errChan : List GoString) :
    Option (Worker × Nat × List GoString) :=
  match w.pc with
  | .acquire =>
    if semaphore < cfg.parallelThreads then some ({ w with pc := .execute }, semaphore + 1, errChan)
    else none
  | .execute => some ({ w with pc := .release }, semaphore, errChan)
  | .release => some ({ w with pc := .report }, semaphore - 1, errChan)
  | .report =>
    match reportOf w.inference (cfg.exec w.id w.inference w.code) with
    | some err =>
      if errChan.length < cfg.errChanCap then some ({ w with pc := .done }, semaphore, errChan ++ [err])
      else none
    | none => some ({ w with pc := .done }, semaphore, errChan)
  | .done => none

/-- One step of the goroutine chosen by the scheduler: `none` is the main
goroutine, `some i` the `i`-th worker. The main goroutine passes `wg.Wait()`
once every worker is done, closes and drains `errChan` and returns. The result
is `none` when the chosen goroutine cannot move. -/
def step (cfg : RunConfig) (s : RunState) : Option Nat → Option RunState
  | none =>
    match s.main with
    | .waiting =>
      if s.workers.all (fun w => w.pc = .done) then some { s with errChan := [], main := .returned s.errChan }
      else none
    | .returned _ => none
  | some i =>
    match s.workers.get? i with
    | none => none
    | some w =>
      match workerStep cfg w s.semaphore s.errChan with
      | none => none
      | some (w', semaphore, errChan) =>
        some { s with workers := s.workers.set i w', semaphore := semaphore, errChan := errChan }

/-- The state after the scheduler's choices `schedule`, if each chosen goroutine
could move. -/
def run (cfg : RunConfig) : RunState → List (Option Nat) → Option RunState
  | s, [] => some s
  | s, choice :: schedule =>
    match step cfg s choice with
    | none => none
    | some s' => run cfg s' schedule

/-- No goroutine can move and the main goroutine has not returned. -/
def Deadlocked (cfg : RunConfig) (s : RunState) : Prop :=
  s.main = .waiting ∧ ∀ choice, step cfg s choice = none

/-! ## Statements taken from the specification -/

/-- Stated from the claim on the scan: the lines after the first line that
contains `Infer: <name>`. -/
def linesAfterFirstStart (name : GoString) (lines : List GoString) : List GoString :=
  (lines.dropWhile fun line => !Contains line (lit "Infer: " ++ name)).drop 1

/-- Stated from the claim on the scan: every line after the first start-marker
line that does not itself contain `Infer: <name>`, through the last line of
the file, each followed by a newline. -/
def codeToEndOfFile (name : GoString) (lines : List GoString) : GoString :=
  ((linesAfterFirstStart name lines).filter fun line =>
    !Contains line (lit "Infer: " ++ name)).flatMap fun line => line ++ lit "\n"

/-- Whether the scan of `attachCodeToTags` for `name` reaches its `break`
(same control flow as `scanLines`). -/
def reachesBreak (name : GoString) : List GoString → Bool
  | [] => false
  | line :: rest =>
    if Contains line (lit "Infer: " ++ name) then reachesBreak name rest
    else if Contains line (lit "EndInfer: " ++ name) then true
    else reachesBreak name rest

/-- Everything of a tag but its `Code`. -/
def tagFrame (tag : Tag) : GoString × List Inference := (tag.Name, tag.Inferences)

/-- Everything of a file but the `Code` of its tags. -/
def fileFrame (file : File) : GoString × List (GoString × List Inference) :=
  (file.Path, file.Tags.map tagFrame)

/-- What `gohcl.DecodeBody` guarantees about the `file` blocks when it
succeeds: block by block, in document order, the decoded `File` has the only
label of a block of type `file` as its `Path`. -/
def DeclaredBy (blocks : List Block) (files : List File) : Prop :=
  List.Forall₂ (fun block file => block.BlockType = lit "file" ∧ block.Labels = [file.Path])
    blocks files

/-- The message of the error `ParseInferfile` builds with
`fmt.Errorf("file not found: %s (Inferfile line: %d)", ...)`. -/
def fileNotFound (path : GoString) (line : Int) : GoString :=
  lit "file not found: " ++ path ++ lit " (Inferfile line: " ++ formatInt line ++ lit ")"

/-- The inference of the end-to-end scenario of the specification, as
`gohcl.DecodeBody` leaves it: `Tag_Name` carries no `hcl` tag and keeps its
zero value. -/
def authInference : Inference :=
  { Assertion := lit "the function validates input", Model := lit "m", Count := 3,
    Threshold := Float64.ofRatio 67 100, MaxTokens := 0, Temperature := .fin false 0 0,
    Tag_Name := [] }

/-- The decoded configuration of the end-to-end scenario: one file with one
tag `auth` holding `authInference`. -/
def authConfig : InferConfiguration :=
  { Files := [{ Path := lit "auth.go",
                Tags := [{ Name := lit "auth", Inferences := [authInference], Code := [] }] }] }

/-- The text of the file of the end-to-end scenario. -/
def authSource : GoString :=
  lit "// Infer: auth\nfunc check(s string) bool \x7b return s != \"\" \x7d\n"

/-- The outcomes of `os.Stat(path)` that matter to the existence check: there
is a file at the path, the call fails with ENOENT (`no such file or
directory`), or it fails with ENOTDIR (`not a directory`: a parent of the path
is a regular file). -/
inductive StatResult where
  | found | noSuchFile | notADirectory
  deriving DecidableEq

/-- Go `os.IsNotExist(err)` for the `err` of `os.Stat`: true for ENOENT, false
for ENOTDIR and when there is no error. -/
def IsNotExist : StatResult → Bool
  | .noSuchFile => true
  | .found => false
  | .notADirectory => false

/-- Whether the path does not exist: `os.Stat` found no file there. -/
def PathMissing : StatResult → Bool
  | .found => false
  | .noSuchFile => true
  | .notADirectory => true

/-- A directory holding the regular file `auth.go` and nothing else, as
`os.Stat` sees it. -/
def authDirStat (path : GoString) : StatResult :=
  if path = lit "auth.go" then .found
  else if path = lit "auth.go/child" then .notADirectory
  else .noSuchFile

/-- The same directory as `ioutil.ReadFile` sees it. -/
def authDirRead (path : GoString) : Except GoString GoString :=
  if path = lit "auth.go" then .ok authSource
  else if path = lit "auth.go/child" then .error (lit "open auth.go/child: not a directory")
  else .error (lit "open " ++ path ++ lit ": no such file or directory")

/-- The decoded Inferfile `file "auth.go/child" {}` (line 1). -/
def childOnly : Parsed :=
  { config := { Files := [{ Path := lit "auth.go/child", Tags := [] }] },
    syntaxBody := some [{ BlockType := lit "file", Labels := [lit "auth.go/child"], Line := 1 }] }

/-- The decoded Inferfile `file "auth.go/child" {}` (line 1) followed by
`file "missing.go" {}` (line 2). -/
def childThenMissing : Parsed :=
  { config := { Files := [{ Path := lit "auth.go/child", Tags := [] },
                          { Path := lit "missing.go", Tags := [] }] },
    syntaxBody := some [{ BlockType := lit "file", Labels := [lit "auth.go/child"], Line := 1 },
                        { BlockType := lit "file", Labels := [lit "missing.go"], Line := 2 }] }

/-- What one iteration of the loop of `Execute` makes of the outcome of its
`CreateChatCompletion` call: the error of one of the three early returns, or
the decoded `resp.Assertion`. -/
def verdict (o : Oracle) : Except GoString (List GoString) → Except GoString Bool
  | .error err => .error (lit "chat completion error: " ++ err)
  | .ok [] => .error (lit "no choices in completion response")
  | .ok (content :: _) =>
    match o.Unmarshal content with
    | .error err => .error (lit "failed to unmarshal response JSON: " ++ err)
    | .ok assertion => .ok assertion

/-- An oracle that answers the `n`-th call with the `n`-th of `verdicts` in the
envelope the prompt asks for, and whose decoder reads that envelope. -/
def verdictOracle (verdicts : List Bool) : Oracle where
  CreateChatCompletion n _ :=
    match verdicts.get? n with
    | some true => .ok [lit "\x7b\"assertion\": true\x7d"]
    | some false => .ok [lit "\x7b\"assertion\": false\x7d"]
    | none => .error (lit "EOF")
  Unmarshal content :=
    if content = lit "\x7b\"assertion\": true\x7d" then .ok true
    else if content = lit "\x7b\"assertion\": false\x7d" then .ok false
    else .error (lit "invalid character")

/-- An inference with four samples and the threshold `p / d`. -/
def fourSamples (p d : Nat) : Inference :=
  { Assertion := lit "the function validates input", Model := lit "m", Count := 4,
    Threshold := Float64.ofRatio p d, MaxTokens := 0, Temperature := .fin false 0 0,
    Tag_Name := [] }

/-- Whether the worker sends on `errChan`. -/
def reports (cfg : RunConfig) (w : Worker) : Bool :=
  (reportOf w.inference (cfg.exec w.id w.inference w.code)).isSome

/-- The number of workers that have sent on `errChan` and finished. -/
def sent (cfg : RunConfig) (workers : List Worker) : Nat :=
  workers.countP fun w => decide (w.pc = .done) && reports cfg w

/-- The number of workers that are to send on `errChan`. -/
def reporters (cfg : RunConfig) (workers : List Worker) : Nat :=
  workers.countP (reports cfg)

/-- The invariant of a run in which more workers are to report than `errChan`
can buffer: the main goroutine is still waiting, the buffer holds one entry
for each worker that has reported, and is within its capacity. -/
def Blocking (cfg : RunConfig) (s : RunState) : Prop :=
  s.main = .waiting ∧ sent cfg s.workers = s.errChan.length ∧
    s.errChan.length ≤ cfg.errChanCap ∧ cfg.errChanCap < reporters cfg s.workers

/-- A configuration with one file whose single tag holds two inferences. -/
def twoInferences : InferConfiguration :=
  { Files := [{ Path := lit "auth.go",
                Tags := [{ Name := lit "auth", Inferences := [authInference, authInference],
                           Code := authSource }] }] }

/-- An `Execute` that returns `(false, nil)` after three calls for every unit. -/
def allFail : Nat → Inference → GoString → ExecResult :=
  fun _ _ _ => { passed := false, err := none, calls := 3 }

/-! ## Lemmas on strings -/

theorem hasPrefix_iff (s p : GoString) : HasPrefix s p = true ↔ p <+: s := by
  induction s generalizing p with
  | nil => cases p <;> simp [HasPrefix]
  | cons c s ih =>
    cases p with
    | nil => simp [HasPrefix]
    | cons d p =>
      simp only [HasPrefix, Bool.and_eq_true, beq_iff_eq, ih, List.cons_prefix_cons]
      constructor
      · rintro ⟨h, hp⟩; exact ⟨h.symm, hp⟩
      · rintro ⟨h, hp⟩; exact ⟨h.symm, hp⟩

theorem contains_iff (s substr : GoString) : Contains s substr = true ↔ substr <:+: s := by
  induction s with
  | nil =>
    simp only [Contains, hasPrefix_iff, List.prefix_nil]
    constructor
    · intro h; subst h; exact List.nil_infix
    · intro h; exact List.eq_nil_of_infix_nil h
  | cons c s ih =>
    simp only [Contains, Bool.or_eq_true, hasPrefix_iff, ih, List.infix_cons_iff]

theorem contains_of_contains_append (s a b : GoString)
    (h : Contains s (a ++ b) = true) : Contains s b = true := by
  rw [contains_iff] at h ⊢
  exact List.IsInfix.trans (List.suffix_append a b).isInfix h

theorem endMarker_eq (name : GoString) :
    lit "EndInfer: " ++ name = lit "End" ++ (lit "Infer: " ++ name) := by
  have h : lit "EndInfer: " = lit "End" ++ lit "Infer: " := by decide
  rw [h, List.append_assoc]

theorem start_of_end (name line : GoString)
    (h : Contains line (lit "EndInfer: " ++ name) = true) :
    Contains line (lit "Infer: " ++ name) = true := by
  rw [endMarker_eq] at h
  exact contains_of_contains_append _ _ _ h

theorem end_false_of_start_false (name line : GoString)
    (h : Contains line (lit "Infer: " ++ name) = false) :
    Contains line (lit "EndInfer: " ++ name) = false := by
  cases he : Contains line (lit "EndInfer: " ++ name) with
  | false => rfl
  | true => rw [start_of_end name line he] at h; exact absurd h (by decide)

/-! ## Lemmas on the scan -/

theorem scanLines_inBlock (name : GoString) (lines : List GoString) (tagBuilder : GoString) :
    scanLines name lines true tagBuilder =
      tagBuilder ++ (lines.filter fun line =>
        !Contains line (lit "Infer: " ++ name)).flatMap fun line => line ++ lit "\n" := by
  induction lines generalizing tagBuilder with
  | nil => simp [scanLines]
  | cons line rest ih =>
    cases hs : Contains line (lit "Infer: " ++ name) with
    | true => simp [scanLines, hs, ih]
    | false =>
      simp [scanLines, hs, end_false_of_start_false name line hs, ih, List.append_assoc]

theorem scanLines_outside (name : GoString) (lines : List GoString) (tagBuilder : GoString) :
    scanLines name lines false tagBuilder = tagBuilder ++ codeToEndOfFile name lines := by
  induction lines generalizing tagBuilder with
  | nil => simp [scanLines, codeToEndOfFile, linesAfterFirstStart]
  | cons line rest ih =>
    cases hs : Contains line (lit "Infer: " ++ name) with
    | true =>
      simp [scanLines, hs, scanLines_inBlock, codeToEndOfFile, linesAfterFirstStart,
        List.dropWhile_cons]
    | false =>
      have := ih tagBuilder
      simp [scanLines, hs, end_false_of_start_false name line hs, this, codeToEndOfFile,
        linesAfterFirstStart, List.dropWhile_cons]

theorem reachesBreak_false (name : GoString) (lines : List GoString) :
    reachesBreak name lines = false := by
  induction lines with
  | nil => rfl
  | cons line rest ih =>
    cases hs : Contains line (lit "Infer: " ++ name) with
    | true => simp [reachesBreak, hs, ih]
    | false => simp [reachesBreak, hs, end_false_of_start_false name line hs, ih]

/-! ## Region extraction -/

/-- C9: a line that contains `EndInfer: <name>` also contains `Infer: <name>`,
so the scan of `attachCodeToTags` never reaches its `break`, and for every
file text the tag's `Code` is the concatenation, each followed by a newline, of
every line after the first line containing `Infer: <name>` that does not itself
contain `Infer: <name>`, through the last line of the file. -/
theorem attachCodeToTags_captures_to_end_of_file :
    (∀ name line : GoString, Contains line (lit "EndInfer: " ++ name) = true →
        Contains line (lit "Infer: " ++ name) = true) ∧
    (∀ (name : GoString) (source : GoString), reachesBreak name (Split source) = false) ∧
    (∀ (readFile : GoString → Except GoString GoString) (file : File),
        attachCodeToTags readFile file =
          (readFile file.Path).map fun source =>
            { file with Tags := file.Tags.map fun tag =>
                { tag with Code := codeToEndOfFile tag.Name (Split source) } }) := by
  refine ⟨start_of_end, fun name source => reachesBreak_false name _, ?_⟩
  intro readFile file
  unfold attachCodeToTags
  cases readFile file.Path with
  | error err => rfl
  | ok source =>
    simp only [Except.map]
    congr 2
    apply List.map_congr_left
    intro tag _
    simp [attachCodeToTag, scanLines_outside]

/-- Witness for C9: a line holding the end marker of tag `x` contains the
start marker of `x`. -/
theorem attachCodeToTags_captures_to_end_of_file_witness :
    Contains (lit "// EndInfer: x") (lit "Infer: " ++ lit "x") = true :=
  attachCodeToTags_captures_to_end_of_file.1 (lit "x") (lit "// EndInfer: x") (by decide)

/-- C1 (fails on the code): on the stub file of `TestParseInferfileWithStubFile`
the tag `OpenAI client` does not get the three lines of `openaiClient` only:
the end-marker line is skipped as a start marker and the empty last line of the
file is captured as well. -/
theorem attachCodeToTags_stub_file_overruns :
    attachCodeToTags (fun _ => .ok stubGoCode)
        { Path := lit "/tmp/mycode.go",
          Tags := [{ Name := lit "OpenAI client", Inferences := [], Code := [] }] } =
      .ok { Path := lit "/tmp/mycode.go",
            Tags := [{ Name := lit "OpenAI client", Inferences := [],
                       Code := lit "func openaiClient() \x7b\n\t// This is a stub function\n\x7d\n\n" }] } ∧
    lit "func openaiClient() \x7b\n\t// This is a stub function\n\x7d\n\n" ≠
      lit "func openaiClient() \x7b\n\t// This is a stub function\n\x7d\n" := by
  constructor
  · rfl
  · decide

/-! ## Lemmas on the loader -/

theorem attachCodeToTags_of_read (readFile : GoString → Except GoString GoString) (file : File)
    (source : GoString) (h : readFile file.Path = .ok source) :
    attachCodeToTags readFile file =
      .ok { file with Tags := file.Tags.map (attachCodeToTag (Split source)) } := by
  simp [attachCodeToTags, h]

theorem tagFrame_attach (lines : List GoString) (tags : List Tag) :
    (tags.map (attachCodeToTag lines)).map tagFrame = tags.map tagFrame := by
  rw [List.map_map]
  apply List.map_congr_left
  intro tag _
  rfl

theorem fileFrame_attachCodeToTags (readFile : GoString → Except GoString GoString)
    (file file' : File) (h : attachCodeToTags readFile file = .ok file') :
    fileFrame file' = fileFrame file := by
  unfold attachCodeToTags at h
  cases hr : readFile file.Path with
  | error err => simp [hr] at h
  | ok source =>
    simp only [hr] at h
    injection h with h
    subst h
    simp only [fileFrame, tagFrame_attach]

theorem fileFrame_attachAll (readFile : GoString → Except GoString GoString)
    (files files' : List File) (h : attachAll readFile files = .ok files') :
    files'.map fileFrame = files.map fileFrame := by
  induction files generalizing files' with
  | nil =>
    simp only [attachAll] at h
    injection h with h
    subst h
    rfl
  | cons file rest ih =>
    unfold attachAll at h
    cases ha : attachCodeToTags readFile file with
    | error err => simp [ha] at h
    | ok file' =>
      cases hr : attachAll readFile rest with
      | error err => simp [ha, hr] at h
      | ok rest' =>
        simp only [ha, hr] at h
        injection h with h
        subst h
        simp [fileFrame_attachCodeToTags readFile file file' ha, ih rest' hr]

theorem fileFrame_ParseInferfile (notExist : GoString → Bool)
    (readFile : GoString → Except GoString GoString) (p : Parsed) (config : InferConfiguration)
    (h : ParseInferfile (.ok p) notExist readFile = .ok config) :
    config.Files.map fileFrame = p.config.Files.map fileFrame := by
  unfold ParseInferfile at h
  simp only at h
  cases hb : p.syntaxBody with
  | none => simp [hb] at h
  | some blocks =>
    cases hc : checkFilesExist notExist blocks p.config.Files with
    | some err => simp [hb, hc] at h
    | none =>
      cases ha : attachAll readFile p.config.Files with
      | error err => simp [hb, hc, ha] at h
      | ok files =>
        simp only [hb, hc, ha] at h
        injection h with h
        subst h
        exact fileFrame_attachAll readFile _ _ ha

theorem get?_append_length (pre post : List Block) (block : Block) :
    (pre ++ block :: post).get? pre.length = some block := by
  induction pre with
  | nil => rfl
  | cons b pre ih => simpa using ih

theorem checkFilesExist_skip (notExist : GoString → Bool) (blocks : List Block)
    (pre rest : List File) (h : ∀ file ∈ pre, notExist file.Path = false) :
    checkFilesExist notExist blocks (pre ++ rest) = checkFilesExist notExist blocks rest := by
  induction pre with
  | nil => rfl
  | cons file pre ih =>
    have hf : notExist file.Path = false := h file (List.mem_cons_self _ _)
    have hp : ∀ file ∈ pre, notExist file.Path = false :=
      fun g hg => h g (List.mem_cons_of_mem _ hg)
    simp [checkFilesExist, hf, ih hp]

theorem findFileBlock_first (path : GoString) (pre post : List Block) (block : Block)
    (hpre : ∀ b ∈ pre, b.Labels.head? ≠ some path)
    (htype : block.BlockType = lit "file") (hlabel : block.Labels = [path]) :
    findFileBlock path (pre ++ block :: post) = some (fileNotFound path block.Line) := by
  induction pre with
  | nil => simp [findFileBlock, htype, hlabel, fileNotFound]
  | cons b pre ih =>
    have hb : b.Labels.head? ≠ some path := hpre b (List.mem_cons_self _ _)
    have hp : ∀ b ∈ pre, b.Labels.head? ≠ some path :=
      fun g hg => hpre g (List.mem_cons_of_mem _ hg)
    simp [findFileBlock, hb, ih hp]

theorem declaredBy_split (blocks : List Block) (pre : List File) (file : File)
    (post : List File) (h : DeclaredBy blocks (pre ++ file :: post)) :
    ∃ bpre block bpost, blocks = bpre ++ block :: bpost ∧ DeclaredBy bpre pre ∧
      block.BlockType = lit "file" ∧ block.Labels = [file.Path] := by
  induction pre generalizing blocks with
  | nil =>
    cases h with
    | cons hb _ => exact ⟨[], _, _, rfl, List.Forall₂.nil, hb.1, hb.2⟩
  | cons f pre ih =>
    cases h with
    | cons hb hrest =>
      obtain ⟨bpre, block, bpost, hblocks, hdecl, htype, hlabel⟩ := ih _ hrest
      refine ⟨_ :: bpre, block, bpost, ?_, List.Forall₂.cons hb hdecl, htype, hlabel⟩
      rw [hblocks]
      rfl

theorem declaredBy_mem (blocks : List Block) (files : List File) (h : DeclaredBy blocks files)
    (block : Block) (hb : block ∈ blocks) : ∃ file ∈ files, block.Labels = [file.Path] := by
  induction h with
  | nil => cases hb
  | cons hr _ ih =>
    rcases List.mem_cons.1 hb with rfl | hmem
    · exact ⟨_, List.mem_cons_self _ _, hr.2⟩
    · obtain ⟨file, hfile, hl⟩ := ih hmem
      exact ⟨file, List.mem_cons_of_mem _ hfile, hl⟩

/-! ## The loader -/

/-- C8: region extraction writes only the `Code` field. For a file with a
readable path `attachCodeToTags` succeeds and leaves the `Path`, the number and
order of the tags and every tag's `Name` and `Inferences` unchanged; whenever
`ParseInferfile` returns a configuration its files are, in number, order and
everything but `Code`, those decoded; a readable, existing file declared with
zero tags loads without error and still has its path and zero tags. -/
theorem extraction_writes_only_code (notExist : GoString → Bool)
    (readFile : GoString → Except GoString GoString) (file : File) (source : GoString)
    (hread : readFile file.Path = .ok source) :
    (∃ file', attachCodeToTags readFile file = .ok file' ∧ file'.Path = file.Path ∧
        file'.Tags.map tagFrame = file.Tags.map tagFrame ∧
        file'.Tags.length = file.Tags.length) ∧
    (∀ (p : Parsed) (config : InferConfiguration),
        ParseInferfile (.ok p) notExist readFile = .ok config →
          config.Files.map fileFrame = p.config.Files.map fileFrame ∧
          config.Files.length = p.config.Files.length) ∧
    (∀ blocks : List Block, notExist file.Path = false → file.Tags = [] →
        ParseInferfile (.ok { config := { Files := [file] }, syntaxBody := some blocks })
          notExist readFile = .ok { Files := [{ Path := file.Path, Tags := [] }] }) := by
  refine ⟨⟨_, attachCodeToTags_of_read readFile file source hread, rfl,
    tagFrame_attach _ _, by simp⟩, ?_, ?_⟩
  · intro p config h
    have hf := fileFrame_ParseInferfile notExist readFile p config h
    exact ⟨hf, by simpa using congrArg List.length hf⟩
  · intro blocks hexists htags
    simp [ParseInferfile, checkFilesExist, hexists, attachAll,
      attachCodeToTags_of_read readFile file source hread, htags]

/-- Witness for C8: the file of `TestParseInferfileNoTagsWithStubFile`, which
exists, is readable and is declared with no tag. -/
theorem extraction_writes_only_code_witness :
    ParseInferfile
        (.ok { config := { Files := [{ Path := lit "/tmp/mycode.go", Tags := [] }] },
               syntaxBody := some [{ BlockType := lit "file", Labels := [lit "/tmp/mycode.go"],
                                     Line := 1 }] })
        (fun _ => false) (fun _ => .ok stubGoCode) =
      .ok { Files := [{ Path := lit "/tmp/mycode.go", Tags := [] }] } :=
  (extraction_writes_only_code (fun _ => false) (fun _ => .ok stubGoCode)
    { Path := lit "/tmp/mycode.go", Tags := [] } stubGoCode rfl).2.2 _ rfl rfl

theorem ParseInferfile_reports_first_notExist (notExist : GoString → Bool)
    (readFile : GoString → Except GoString GoString) (config : InferConfiguration)
    (blocks : List Block) (pre post : List File) (file : File) (block : Block)
    (hdecoded : DeclaredBy blocks config.Files)
    (hfiles : config.Files = pre ++ file :: post)
    (hpre : ∀ f ∈ pre, notExist f.Path = false)
    (hmissing : notExist file.Path = true)
    (hblock : blocks.get? pre.length = some block) :
    ParseInferfile (.ok { config := config, syntaxBody := some blocks }) notExist readFile =
      .error (lit "file not found: " ++ file.Path ++ lit " (Inferfile line: " ++
        formatInt block.Line ++ lit ")") := by
  rw [hfiles] at hdecoded
  obtain ⟨bpre, b, bpost, hblocks, hdecl, htype, hlabel⟩ :=
    declaredBy_split blocks pre file post hdecoded
  have hlen : bpre.length = pre.length := List.Forall₂.length_eq hdecl
  have hb : b = block := by
    rw [hblocks, ← hlen, get?_append_length] at hblock
    exact Option.some.inj hblock
  subst hb
  have hother : ∀ g ∈ bpre, g.Labels.head? ≠ some file.Path := by
    intro g hg hhead
    obtain ⟨f, hf, hl⟩ := declaredBy_mem bpre pre hdecl g hg
    rw [hl] at hhead
    simp only [List.head?_cons, Option.some.injEq] at hhead
    have := hpre f hf
    rw [hhead, hmissing] at this
    exact absurd this (by decide)
  have hfind := findFileBlock_first file.Path bpre bpost b hother htype hlabel
  simp only [ParseInferfile, hfiles, checkFilesExist_skip notExist blocks pre _ hpre,
    checkFilesExist, hmissing, if_true]
  rw [hblocks, hfind]
  rfl

/-- C5 (as stated, fails): in a directory whose only entry is the regular file
`auth.go`, the path `auth.go/child` does not exist, yet `os.IsNotExist` is
false for the ENOTDIR error of `os.Stat`. For the Inferfile naming that path
alone `ParseInferfile` returns the error of `ioutil.ReadFile`, not
`file not found: auth.go/child (Inferfile line: 1)`; for the Inferfile naming
it on line 1 and `missing.go` on line 2 the error names `missing.go` and line
2, which is not the first non-existent path. -/
theorem ParseInferfile_missing_path_under_regular_file :
    PathMissing (authDirStat (lit "auth.go/child")) = true ∧
    ParseInferfile (.ok childOnly) (fun path => IsNotExist (authDirStat path)) authDirRead =
      .error (lit "open auth.go/child: not a directory") ∧
    lit "open auth.go/child: not a directory" ≠
      lit "file not found: auth.go/child (Inferfile line: 1)" ∧
    ParseInferfile (.ok childThenMissing) (fun path => IsNotExist (authDirStat path))
        authDirRead =
      .error (lit "file not found: missing.go (Inferfile line: 2)") ∧
    lit "file not found: missing.go (Inferfile line: 2)" ≠
      lit "file not found: auth.go/child (Inferfile line: 1)" := by
  refine ⟨by rfl, by rfl, by decide, by rfl, by decide⟩

/-- C5 (amended): when the Inferfile parses and decodes and some file block
names a path for which `os.Stat` fails with an error that `os.IsNotExist`
accepts (ENOENT), `ParseInferfile` returns no configuration but the error
`file not found: <path> (Inferfile line: <n>)`, where `<path>` is the first
path in document order that fails that check, as the decoded `Path` of the
file (the value of the block label) gives it, and `<n>` the line on which the
block declaring it starts. -/
theorem ParseInferfile_missing_file (stat : GoString → StatResult)
    (readFile : GoString → Except GoString GoString) (config : InferConfiguration)
    (blocks : List Block) (pre post : List File) (file : File) (block : Block)
    (hdecoded : DeclaredBy blocks config.Files)
    (hfiles : config.Files = pre ++ file :: post)
    (hpre : ∀ f ∈ pre, IsNotExist (stat f.Path) = false)
    (hmissing : IsNotExist (stat file.Path) = true)
    (hblock : blocks.get? pre.length = some block) :
    ParseInferfile (.ok { config := config, syntaxBody := some blocks })
        (fun path => IsNotExist (stat path)) readFile =
      .error (lit "file not found: " ++ file.Path ++ lit " (Inferfile line: " ++
        formatInt block.Line ++ lit ")") :=
  ParseInferfile_reports_first_notExist (fun path => IsNotExist (stat path)) readFile config
    blocks pre post file block hdecoded hfiles hpre hmissing hblock

/-- Witness for C5: the Inferfile of `TestMissingFileError`, whose only file
block, on line 1, names `./this/file/does/not/exist`, a path for which
`os.Stat` fails with ENOENT. -/
theorem ParseInferfile_missing_file_witness :
    ParseInferfile
        (.ok { config := { Files := [{ Path := lit "./this/file/does/not/exist", Tags := [] }] },
               syntaxBody := some [{ BlockType := lit "file",
                                     Labels := [lit "./this/file/does/not/exist"], Line := 1 }] })
        (fun path => IsNotExist (authDirStat path)) authDirRead =
      .error (lit "file not found: ./this/file/does/not/exist (Inferfile line: 1)") :=
  ParseInferfile_missing_file authDirStat authDirRead
    { Files := [{ Path := lit "./this/file/does/not/exist", Tags := [] }] }
    [{ BlockType := lit "file", Labels := [lit "./this/file/does/not/exist"], Line := 1 }]
    [] [] { Path := lit "./this/file/does/not/exist", Tags := [] }
    { BlockType := lit "file", Labels := [lit "./this/file/does/not/exist"], Line := 1 }
    (List.Forall₂.cons ⟨rfl, rfl⟩ List.Forall₂.nil) rfl (fun _ h => nomatch h) (by decide) rfl

/-- C7 (fails on the code): in the configuration `ParseInferfile` returns for
the end-to-end scenario the inference of tag `auth` has an empty `Tag_Name`,
not `auth`, and the prompt `Execute` builds names the tag as `[]`. -/
theorem ParseInferfile_leaves_Tag_Name_empty :
    ParseInferfile
        (.ok { config := authConfig,
               syntaxBody := some [{ BlockType := lit "file", Labels := [lit "auth.go"],
                                     Line := 1 }] })
        (fun _ => false) (fun _ => .ok authSource) =
      .ok { Files := [{ Path := lit "auth.go",
                        Tags := [{ Name := lit "auth", Inferences := [authInference],
                                   Code := lit "func check(s string) bool \x7b return s != \"\" \x7d\n\n" }] }] } ∧
    authInference.Tag_Name = [] ∧
    authInference.Tag_Name ≠ lit "auth" ∧
    (messages authInference (lit "CODE")).head?.map (fun m => m.Content) =
      some (lit "Here is a code block tagged as []. Please analyze the following code: \n\nCODE") := by
  refine ⟨by rfl, by rfl, by decide, by decide⟩

/-! ## The rounding on known values -/

namespace Float64

theorem ofRatio_one_tenth : ofRatio 1 10 = fin false 7205759403792794 (-56) := by decide

theorem ofRatio_67_100 : ofRatio 67 100 = fin false 6034823500676465 (-53) := by decide

theorem two_div_three : div (ofInt 2) (ofInt 3) = fin false 6004799503160661 (-53) := by decide

theorem ofInt_ties_to_even :
    ofInt (2 ^ 53 + 1) = fin false 4503599627370496 1 ∧
    ofInt (2 ^ 53 + 3) = fin false 4503599627370498 1 ∧
    ofInt (2 ^ 63 - 1) = fin false 4503599627370496 11 ∧
    ofInt (-5) = fin true 5629499534213120 (-50) := by decide

end Float64

/-! ## Lemmas on `float64` -/

namespace Float64

theorem bitLenAux_zero (fuel : Nat) : bitLenAux fuel 0 = 0 := by
  cases fuel <;> simp [bitLenAux]

theorem bitLenAux_bounds (fuel : Nat) : ∀ n, n ≤ fuel → 0 < n →
    2 ^ (bitLenAux fuel n - 1) ≤ n ∧ n < 2 ^ bitLenAux fuel n ∧ 0 < bitLenAux fuel n := by
  induction fuel with
  | zero => intro n h0 hpos; omega
  | succ fuel ih =>
    intro n hle hpos
    have hn : n ≠ 0 := by omega
    simp only [bitLenAux, if_neg hn]
    by_cases hhalf : n / 2 = 0
    · have h1 : n = 1 := by omega
      subst h1
      simp [bitLenAux_zero]
    · obtain ⟨hlo, hhi, hb⟩ := ih (n / 2) (by omega) (by omega)
      generalize bitLenAux fuel (n / 2) = b at hlo hhi hb
      have e1 : 2 ^ b = 2 * 2 ^ (b - 1) := by
        have hb1 : b = (b - 1) + 1 := by omega
        conv_lhs => rw [hb1, Nat.pow_succ]
        omega
      have e2 : 2 ^ (b + 1) = 2 * 2 ^ b := by rw [Nat.pow_succ]; omega
      refine ⟨?_, ?_, by omega⟩
      · simp only [Nat.add_sub_cancel]; omega
      · omega

theorem bitLen_bounds (n : Nat) (hpos : 0 < n) :
    2 ^ (bitLen n - 1) ≤ n ∧ n < 2 ^ bitLen n ∧ 0 < bitLen n :=
  bitLenAux_bounds n n (Nat.le_refl n) hpos

theorem bitLen_le_of_lt (n k : Nat) (h : n < 2 ^ k) : bitLen n ≤ k := by
  by_cases hn : n = 0
  · subst hn
    simp [bitLen, bitLenAux]
  · obtain ⟨hlo, _, hb⟩ := bitLen_bounds n (by omega)
    by_contra hcon
    have hk : k ≤ bitLen n - 1 := by omega
    have := Nat.pow_le_pow_right (by decide : 0 < 2) hk
    omega

theorem nearestEven_nearest (num den : Nat) (hden : 0 < den) :
    2 * num ≤ 2 * (nearestEven num den * den) + den ∧
    2 * (nearestEven num den * den) ≤ 2 * num + den ∧
    ((2 * num + den = 2 * (nearestEven num den * den) ∨
      2 * (nearestEven num den * den) + den = 2 * num) → nearestEven num den % 2 = 0) := by
  have hdm := Nat.div_add_mod num den
  have hmod := Nat.mod_lt num hden
  unfold nearestEven
  simp only
  generalize num / den = q at hdm ⊢
  generalize num % den = r at hdm hmod ⊢
  rw [Nat.mul_comm] at hdm
  split
  · rename_i h
    rw [Nat.add_mul, Nat.one_mul]
    refine ⟨by omega, by omega, ?_⟩
    intro _
    rcases h with h | ⟨_, h⟩ <;> omega
  · rename_i h
    refine ⟨by omega, by omega, ?_⟩
    intro ht
    by_contra hodd
    apply h
    right
    omega

theorem ilog2Ratio_spec (p d : Nat) (hp : 0 < p) (hd : 0 < d) :
    d * 2 ^ (ilog2Ratio p d).toNat ≤ p * 2 ^ (-(ilog2Ratio p d)).toNat ∧
    p * 2 ^ (-(ilog2Ratio p d)).toNat < 2 * (d * 2 ^ (ilog2Ratio p d).toNat) := by
  obtain ⟨hplo, hphi, hpb⟩ := bitLen_bounds p hp
  obtain ⟨hdlo, hdhi, hdb⟩ := bitLen_bounds d hd
  unfold ilog2Ratio
  simp only
  generalize bitLen p = a at hplo hphi hpb ⊢
  generalize bitLen d = b at hdlo hdhi hdb ⊢
  obtain ⟨a, rfl⟩ : ∃ a', a = a' + 1 := ⟨a - 1, by omega⟩
  obtain ⟨b, rfl⟩ : ∃ b', b = b' + 1 := ⟨b - 1, by omega⟩
  simp only [Nat.add_sub_cancel] at hplo hdlo
  rw [Nat.pow_succ] at hphi hdhi
  rcases Nat.le_total b a with hab | hab
  · obtain ⟨n, rfl⟩ : ∃ n, a = b + n := ⟨a - b, by omega⟩
    have ht : ((b + n + 1 : Nat) : Int) - ((b + 1 : Nat) : Int) = (n : Int) := by
      push_cast; ring
    rw [ht]
    have hpow : 2 ^ (b + n) = 2 ^ b * 2 ^ n := Nat.pow_add 2 b n
    simp only [Int.toNat_ofNat, Int.toNat_neg_nat, Nat.pow_zero, Nat.mul_one]
    have hlo' : 2 ^ b * 2 ^ n ≤ d * 2 ^ n := Nat.mul_le_mul_right _ hdlo
    split
    · rename_i h
      simp only [Int.toNat_ofNat, Int.toNat_neg_nat, Nat.pow_zero, Nat.mul_one]
      refine ⟨h, ?_⟩
      rw [hpow] at hphi
      omega
    · rename_i h
      cases n with
      | zero =>
        have h1 : ((0 : Nat) : Int) - 1 = -((1 : Nat) : Int) := by norm_num
        rw [h1]
        simp only [Int.toNat_neg_nat, neg_neg, Int.toNat_ofNat, Nat.pow_zero, Nat.mul_one,
          Nat.pow_one, Nat.add_zero] at *
        omega
      | succ m =>
        have h1 : ((m + 1 : Nat) : Int) - 1 = (m : Int) := by push_cast; ring
        rw [h1]
        simp only [Int.toNat_ofNat, Int.toNat_neg_nat, Nat.pow_zero, Nat.mul_one]
        have e1 : 2 ^ (m + 1) = 2 * 2 ^ m := by rw [Nat.pow_succ]; omega
        have e2 : 2 ^ (b + (m + 1)) = 2 * (2 ^ b * 2 ^ m) := by
          rw [Nat.pow_add, e1]; ring
        rw [e2] at hplo
        rw [e1] at h
        have hlt : d * 2 ^ m < 2 ^ b * 2 * 2 ^ m := Nat.mul_lt_mul_of_pos_right hdhi (Nat.two_pow_pos m)
        constructor
        · nlinarith
        · nlinarith
  · obtain ⟨n, rfl⟩ : ∃ n, b = a + n := ⟨b - a, by omega⟩
    have ht : ((a + 1 : Nat) : Int) - ((a + n + 1 : Nat) : Int) = -(n : Int) := by
      push_cast; ring
    rw [ht]
    have hpow : 2 ^ (a + n) = 2 ^ a * 2 ^ n := Nat.pow_add 2 a n
    simp only [Int.toNat_neg_nat, neg_neg, Int.toNat_ofNat, Nat.pow_zero, Nat.mul_one]
    rw [hpow] at hdlo hdhi
    have hplt : p * 2 ^ n < 2 ^ a * 2 * 2 ^ n := Nat.mul_lt_mul_of_pos_right hphi (Nat.two_pow_pos n)
    have hple : 2 ^ a * 2 ^ n ≤ p * 2 ^ n := Nat.mul_le_mul_right _ hplo
    split
    · rename_i h
      simp only [Int.toNat_neg_nat, neg_neg, Int.toNat_ofNat, Nat.pow_zero, Nat.mul_one]
      refine ⟨h, ?_⟩
      nlinarith
    · rename_i h
      have h1 : (-(n : Int) - 1) = -((n + 1 : Nat) : Int) := by push_cast; ring
      rw [h1]
      simp only [Int.toNat_neg_nat, neg_neg, Int.toNat_ofNat, Nat.pow_zero, Nat.mul_one]
      have e1 : 2 ^ (n + 1) = 2 * 2 ^ n := by rw [Nat.pow_succ]; omega
      rw [e1]
      constructor
      · nlinarith
      · nlinarith

theorem pack_ne_nan (neg : Bool) (q : Nat) (E : Int) : pack neg q E ≠ nan := by
  unfold pack
  split
  · simp
  · split <;> simp

theorem roundPos_ne_nan (neg : Bool) (p d : Nat) : roundPos neg p d ≠ nan :=
  pack_ne_nan _ _ _

theorem ofInt_ne_nan (n : Int) : ofInt n ≠ nan := by
  unfold ofInt
  split
  · simp
  · exact roundPos_ne_nan _ _ _

theorem pack_fin (neg : Bool) (q : Nat) (E : Int) (hq : 0 < q)
    (hfin : (bitLen q : Int) + E ≤ 1024) : ∃ m e, pack neg q E = fin neg m e ∧ m ≠ 0 := by
  unfold pack
  rw [if_neg (by omega)]
  split
  · exact ⟨_, _, rfl, by norm_num⟩
  · exact ⟨_, _, rfl, by omega⟩

theorem nearestEven_bounds (num den : Nat) :
    num / den ≤ nearestEven num den ∧ nearestEven num den ≤ num / den + 1 := by
  unfold nearestEven
  simp only
  split <;> omega

theorem mantissa_of_scaled (num den : Nat) (hden : 0 < den) (hlo : 2 ^ 52 * den ≤ num)
    (hhi : num < 2 ^ 53 * den) :
    2 ^ 52 ≤ nearestEven num den ∧ nearestEven num den ≤ 2 ^ 53 := by
  obtain ⟨h1, h2⟩ := nearestEven_bounds num den
  have hq1 : 2 ^ 52 ≤ num / den := (Nat.le_div_iff_mul_le hden).2 hlo
  have hq2 : num / den < 2 ^ 53 := (Nat.div_lt_iff_lt_mul hden).2 hhi
  omega

theorem roundPos_mantissa (p d : Nat) (hp : 0 < p) (hd : 0 < d)
    (hnormal : -1074 ≤ ilog2Ratio p d - 52) :
    2 ^ 52 ≤ nearestEven (p * 2 ^ (-(quantum p d)).toNat) (d * 2 ^ (quantum p d).toNat) ∧
    nearestEven (p * 2 ^ (-(quantum p d)).toNat) (d * 2 ^ (quantum p d).toNat) ≤ 2 ^ 53 := by
  obtain ⟨hlo, hhi⟩ := ilog2Ratio_spec p d hp hd
  unfold quantum
  rw [max_eq_left hnormal]
  generalize ilog2Ratio p d = L at hlo hhi
  have hdpos : ∀ k, 0 < d * 2 ^ k := fun k => Nat.mul_pos hd (Nat.two_pow_pos k)
  rcases Int.lt_or_le L 0 with hneg | hnn
  · obtain ⟨n, rfl⟩ : ∃ n : Nat, L = -((n + 1 : Nat) : Int) := ⟨(-L - 1).toNat, by omega⟩
    have hE : -((n + 1 : Nat) : Int) - 52 = -((n + 53 : Nat) : Int) := by push_cast; ring
    rw [hE]
    simp only [Int.toNat_neg_nat, neg_neg, Int.toNat_ofNat, Nat.pow_zero, Nat.mul_one] at hlo hhi ⊢
    have e : 2 ^ (n + 53) = 2 ^ 52 * 2 ^ (n + 1) := by
      rw [← Nat.pow_add]; congr 1; omega
    apply mantissa_of_scaled _ _ hd
    · rw [e]; nlinarith
    · rw [e]; nlinarith
  · obtain ⟨n, rfl⟩ : ∃ n : Nat, L = (n : Int) := ⟨L.toNat, by omega⟩
    simp only [Int.toNat_neg_nat, Int.toNat_ofNat, Nat.pow_zero, Nat.mul_one] at hlo hhi
    rcases Nat.lt_or_ge n 52 with hlt | hge
    · obtain ⟨k, hk⟩ : ∃ k, 52 = n + k := ⟨52 - n, by omega⟩
      have hE : (n : Int) - 52 = -((k : Nat) : Int) := by omega
      rw [hE]
      simp only [Int.toNat_neg_nat, neg_neg, Int.toNat_ofNat, Nat.pow_zero, Nat.mul_one]
      have e : 2 ^ 52 = 2 ^ n * 2 ^ k := by rw [← Nat.pow_add, ← hk]
      have e' : 2 ^ 53 = 2 * (2 ^ n * 2 ^ k) := by rw [← e]; norm_num
      have hk0 : 0 < 2 ^ k := Nat.two_pow_pos k
      apply mantissa_of_scaled _ _ hd
      · rw [e]; nlinarith
      · rw [e']; nlinarith
    · obtain ⟨m, rfl⟩ : ∃ m, n = m + 52 := ⟨n - 52, by omega⟩
      have hE : ((m + 52 : Nat) : Int) - 52 = (m : Int) := by push_cast; ring
      rw [hE]
      simp only [Int.toNat_neg_nat, Int.toNat_ofNat, Nat.pow_zero, Nat.mul_one]
      have e : 2 ^ (m + 52) = 2 ^ 52 * 2 ^ m := by rw [Nat.pow_add, Nat.mul_comm]
      rw [e] at hlo hhi
      apply mantissa_of_scaled _ _ (hdpos m)
      · nlinarith
      · nlinarith


theorem ofInt_pos (N : Nat) (h1 : 1 ≤ N) (h63 : N < 2 ^ 63) :
    ∃ m e, ofInt (N : Int) = fin false m e ∧ m ≠ 0 := by
  obtain ⟨hlo, _, hb0⟩ := bitLen_bounds N h1
  have hb63 : bitLen N ≤ 63 := bitLen_le_of_lt N 63 h63
  have hb1 : bitLen 1 = 1 := by decide
  have hL : -1 ≤ ilog2Ratio N 1 ∧ ilog2Ratio N 1 ≤ (bitLen N : Int) - 1 := by
    unfold ilog2Ratio
    simp only [hb1]
    split <;> omega
  have hne : (N : Int) ≠ 0 := by omega
  have hneg : decide ((N : Int) < 0) = false := by simp
  unfold ofInt
  rw [if_neg hne, hneg, Int.natAbs_ofNat]
  unfold roundPos quantum
  simp only
  generalize ilog2Ratio N 1 = L at hL ⊢
  generalize hE : max (L - 52) (-1074) = E
  have hE1 : -53 ≤ E ∧ E ≤ 10 ∧ E ≤ (bitLen N : Int) - 53 := by
    rcases le_total (L - 52) (-1074) with h | h
    · rw [max_eq_right h] at hE; omega
    · rw [max_eq_left h] at hE; omega
  generalize hnum : N * 2 ^ (-E).toNat = num
  generalize hden : 1 * 2 ^ E.toNat = den
  have hden_pos : 0 < den := by
    rw [← hden]; exact Nat.mul_pos (by decide) (Nat.two_pow_pos _)
  have hden_le : den ≤ num := by
    rw [← hden, ← hnum, Nat.one_mul]
    have hpow1 : 1 ≤ 2 ^ (-E).toNat := Nat.two_pow_pos _
    have hpow2 : 2 ^ E.toNat ≤ 2 ^ (bitLen N - 1) :=
      Nat.pow_le_pow_right (by decide) (by omega)
    calc 2 ^ E.toNat ≤ N := le_trans hpow2 hlo
      _ = N * 1 := (Nat.mul_one N).symm
      _ ≤ N * 2 ^ (-E).toNat := Nat.mul_le_mul_left N hpow1
  have hnum_lt : num < 2 ^ 116 := by
    rw [← hnum]
    have hpow : 2 ^ (-E).toNat ≤ 2 ^ 53 := Nat.pow_le_pow_right (by decide) (by omega)
    calc N * 2 ^ (-E).toNat ≤ N * 2 ^ 53 := Nat.mul_le_mul_left N hpow
      _ < 2 ^ 63 * 2 ^ 53 := Nat.mul_lt_mul_of_pos_right h63 (by norm_num)
      _ = 2 ^ 116 := by norm_num
  have hq_pos : 0 < num / den := Nat.div_pos hden_le hden_pos
  have hq_le : num / den ≤ num := Nat.div_le_self _ _
  obtain ⟨hq1, hq2⟩ := nearestEven_bounds num den
  generalize nearestEven num den = q at hq1 hq2 ⊢
  have hqlt : q < 2 ^ 117 := by
    have : (2 : Nat) ^ 117 = 2 * 2 ^ 116 := by norm_num
    omega
  have hbq : bitLen q ≤ 117 := bitLen_le_of_lt q 117 hqlt
  exact pack_fin false q E (by omega) (by omega)

theorem div_ofInt_ne_nan (k : Int) (N : Nat) (h1 : 1 ≤ N) (h63 : N < 2 ^ 63) :
    div (ofInt k) (ofInt (N : Int)) ≠ nan := by
  obtain ⟨m, e, hN, hm⟩ := ofInt_pos N h1 h63
  rw [hN]
  have hk := ofInt_ne_nan k
  cases hx : ofInt k with
  | nan => exact absurd hx hk
  | inf s => simp [div]
  | fin s m1 e1 =>
    simp only [div, if_neg hm]
    split
    · simp
    · exact roundPos_ne_nan _ _ _

theorem le_eq_not_lt (x y : Float64) (hx : x ≠ nan) (hy : y ≠ nan) :
    le y x = !lt x y := by
  cases x with
  | nan => exact absurd rfl hx
  | inf s =>
    cases y with
    | nan => exact absurd rfl hy
    | inf t => cases s <;> cases t <;> rfl
    | fin t m e => simp [le, lt]
  | fin s m1 e1 =>
    cases y with
    | nan => exact absurd rfl hy
    | inf t => simp [le, lt]
    | fin t m2 e2 =>
      simp only [le, lt, min_comm e2 e1]
      by_cases h : scaled s m1 e1 (min e1 e2) < scaled t m2 e2 (min e1 e2)
      · simp [h]
      · simp [h, not_lt.1 h]

theorem lt_nan_left (y : Float64) : lt nan y = false := by
  cases y <;> rfl

theorem zero_div_zero : div (ofInt 0) (ofInt 0) = nan := by
  decide

theorem ne_nan_of_le_left (x y : Float64) (h : le x y = true) : y ≠ nan := by
  intro hy
  subst hy
  cases x <;> simp [le] at h

end Float64

/-! ## Lemmas on the sampling loop -/

theorem executeLoop_succ (o : Oracle) (inference : Inference) (code : GoString)
    (fuel i : Nat) (successCount : Int) :
    executeLoop o inference code (fuel + 1) i successCount =
      if (i : Int) < inference.Count then
        match verdict o (o.CreateChatCompletion i (request inference code)) with
        | .error err => (.error err, i + 1)
        | .ok assertion =>
          executeLoop o inference code fuel (i + 1)
            (if assertion then successCount + 1 else successCount)
      else (.ok successCount, i) := by
  rw [executeLoop]
  split
  · cases hc : o.CreateChatCompletion i (request inference code) with
    | error err => simp [verdict]
    | ok choices =>
      cases choices with
      | nil => simp [verdict]
      | cons content rest =>
        cases hu : o.Unmarshal content with
        | error err => simp [verdict, hu]
        | ok assertion => simp [verdict, hu]
  · rfl

theorem executeLoop_all_ok (o : Oracle) (inference : Inference) (code : GoString)
    (vs : Nat → Bool) (N : Nat) (hN : inference.Count = N)
    (hok : ∀ j < N, verdict o (o.CreateChatCompletion j (request inference code)) = .ok (vs j)) :
    ∀ (len i : Nat) (successCount : Int), i + len = N →
      executeLoop o inference code len i successCount =
        (.ok (successCount + ((List.range' i len).countP vs : Nat)), N) := by
  intro len
  induction len with
  | zero =>
    intro i successCount h
    simp only [Nat.add_zero] at h
    simp [executeLoop, h]
  | succ len ih =>
    intro i successCount h
    have hi : (i : Int) < inference.Count := by rw [hN]; omega
    rw [executeLoop_succ, if_pos hi, hok i (by omega)]
    simp only
    rw [ih (i + 1) _ (by omega), List.range'_succ, List.countP_cons]
    cases vs i
    · simp
    · simp; omega

theorem executeLoop_first_failure (o : Oracle) (inference : Inference) (code : GoString)
    (err : GoString) :
    ∀ (n fuel i : Nat) (successCount : Int), n < fuel → ((i + n : Nat) : Int) < inference.Count →
      (∀ j, i ≤ j → j < i + n →
        ∃ b, verdict o (o.CreateChatCompletion j (request inference code)) = .ok b) →
      verdict o (o.CreateChatCompletion (i + n) (request inference code)) = .error err →
      executeLoop o inference code fuel i successCount = (.error err, i + n + 1) := by
  intro n
  induction n with
  | zero =>
    intro fuel i successCount hfuel hi _ hfail
    obtain ⟨fuel, rfl⟩ : ∃ f, fuel = f + 1 := ⟨fuel - 1, by omega⟩
    simp only [Nat.add_zero] at hi hfail
    rw [executeLoop_succ, if_pos hi, hfail]
  | succ n ih =>
    intro fuel i successCount hfuel hi hok hfail
    obtain ⟨fuel, rfl⟩ : ∃ f, fuel = f + 1 := ⟨fuel - 1, by omega⟩
    have hi0 : (i : Int) < inference.Count := by omega
    obtain ⟨b, hb⟩ := hok i (Nat.le_refl i) (by omega)
    rw [executeLoop_succ, if_pos hi0, hb]
    simp only
    have e : i + 1 + n = i + (n + 1) := by omega
    rw [ih fuel (i + 1) _ (by omega) (by rw [e]; exact hi)
      (fun j h1 h2 => hok j (by omega) (by omega)) (by rw [e]; exact hfail), e]

/-! ## The executor -/

/-- C2: for `Count = N ≥ 1`, a `Threshold` in `[0, 1]` and `N` oracle responses
that all decode, `k` of them with `assertion = true`, `Execute` returns
`(passed, nil)` after `N` calls, where `passed` is true exactly when the
`float64` quotient `k / N` is `>= Threshold`; equality counts as a pass. -/
theorem Execute_passes_iff_rate_ge_threshold (o : Oracle) (inference : Inference)
    (code : GoString) (N : Nat) (vs : Nat → Bool)
    (hN : inference.Count = N) (h1 : 1 ≤ N) (h63 : N < 2 ^ 63)
    (hT0 : Float64.le (Float64.ofInt 0) inference.Threshold = true)
    (_hT1 : Float64.le inference.Threshold (Float64.ofInt 1) = true)
    (hok : ∀ j < N,
      verdict o (o.CreateChatCompletion j (request inference code)) = .ok (vs j)) :
    Execute o inference code =
      { passed := Float64.ge
          (Float64.div (Float64.ofInt ((List.range N).countP vs : Nat)) (Float64.ofInt N))
          inference.Threshold,
        err := none, calls := N } := by
  have hloop := executeLoop_all_ok o inference code vs N hN hok N 0 0 (by omega)
  have hT : inference.Threshold ≠ Float64.nan := Float64.ne_nan_of_le_left _ _ hT0
  have hrate := Float64.div_ofInt_ne_nan ((List.range N).countP vs : Nat) N h1 h63
  have hge := Float64.le_eq_not_lt _ _ hrate hT
  unfold Execute
  simp only [hN, Int.toNat_ofNat, hloop, Int.zero_add, ← List.range_eq_range', Float64.ge, hge]
  cases Float64.lt (Float64.div (Float64.ofInt ((List.range N).countP vs : Nat))
    (Float64.ofInt N)) inference.Threshold <;> rfl

/-- Witness for C2: four samples, two of them true; the threshold `0.5` is met
and the threshold `0.51` is not. -/
theorem Execute_passes_iff_rate_ge_threshold_witness :
    Execute (verdictOracle [true, true, false, false]) (fourSamples 1 2) (lit "CODE") =
      { passed := true, err := none, calls := 4 } ∧
    Execute (verdictOracle [true, true, false, false]) (fourSamples 51 100) (lit "CODE") =
      { passed := false, err := none, calls := 4 } :=
  ⟨(Execute_passes_iff_rate_ge_threshold (verdictOracle [true, true, false, false])
      (fourSamples 1 2) (lit "CODE") 4 (fun j => [true, true, false, false].getD j false)
      rfl (by decide) (by decide) (by decide) (by decide)
      (by intro j hj; interval_cases j <;> rfl)).trans (by decide),
   (Execute_passes_iff_rate_ge_threshold (verdictOracle [true, true, false, false])
      (fourSamples 51 100) (lit "CODE") 4 (fun j => [true, true, false, false].getD j false)
      rfl (by decide) (by decide) (by decide) (by decide)
      (by intro j hj; interval_cases j <;> rfl)).trans (by decide)⟩

/-- C3: when the first response that fails (client error, empty `Choices`, or
content that does not unmarshal) is the `(n + 1)`-th, with `n + 1 ≤ Count`,
`Execute` returns `(false, err)` with the error of that response after exactly
`n + 1` oracle calls, whatever the verdicts of the first `n` calls were. -/
theorem Execute_fails_at_first_failure (o : Oracle) (inference : Inference) (code : GoString)
    (n : Nat) (err : GoString) (hn : (n : Int) < inference.Count)
    (hok : ∀ j < n,
      ∃ b, verdict o (o.CreateChatCompletion j (request inference code)) = .ok b)
    (hfail : verdict o (o.CreateChatCompletion n (request inference code)) = .error err) :
    Execute o inference code = { passed := false, err := some err, calls := n + 1 } := by
  have hloop := executeLoop_first_failure o inference code err n inference.Count.toNat 0 0
    (by omega) (by simpa using hn) (fun j _ h => hok j (by omega)) (by simpa using hfail)
  unfold Execute
  simp only [hloop, Nat.zero_add]

/-- Witness for C3: three samples asked for, the second call fails; the first
verdict does not matter and the third call is not made. -/
theorem Execute_fails_at_first_failure_witness :
    Execute (verdictOracle [true]) authInference (lit "CODE") =
      { passed := false, err := some (lit "chat completion error: EOF"), calls := 2 } :=
  Execute_fails_at_first_failure (verdictOracle [true]) authInference (lit "CODE") 1
    (lit "chat completion error: EOF") (by decide)
    (by intro j hj; interval_cases j; exact ⟨true, rfl⟩) rfl

/-- C6 (as stated, fails): it is not the case that with `count = 3` and
`threshold = 0.67` the verdicts `[true, true, false]` pass and the verdicts
`[true, false, false]` fail. -/
theorem Execute_two_of_three_does_not_pass :
    ¬ ((Execute (verdictOracle [true, true, false]) authInference (lit "CODE")).passed = true ∧
       (Execute (verdictOracle [true, false, false]) authInference (lit "CODE")).passed = false) := by
  decide

/-- C6 (amended): with `count = 3` and `threshold = 0.67`, `Execute` returns
fail without error both for the verdicts `[true, true, false]`, whose rate
`2/3` is below `0.67`, and for the verdicts `[true, false, false]`. -/
theorem Execute_two_of_three_fails :
    Execute (verdictOracle [true, true, false]) authInference (lit "CODE") =
      { passed := false, err := none, calls := 3 } ∧
    Execute (verdictOracle [true, false, false]) authInference (lit "CODE") =
      { passed := false, err := none, calls := 3 } ∧
    Float64.lt (Float64.div (Float64.ofInt 2) (Float64.ofInt 3)) (Float64.ofRatio 67 100) = true := by
  decide

/-- C10: with `Count = 0`, whatever the code and the `Threshold`, `Execute`
makes no oracle call and returns `(true, nil)`: the success rate is the
quotient `0 / 0`, which is NaN, and `NaN < Threshold` is false. The loader
applies no default: whenever `ParseInferfile` returns a configuration, its
inferences are those decoded, `Count` included. -/
theorem Execute_count_zero_passes (o : Oracle) (inference : Inference) (code : GoString)
    (h0 : inference.Count = 0) :
    Execute o inference code = { passed := true, err := none, calls := 0 } ∧
    Float64.div (Float64.ofInt 0) (Float64.ofInt inference.Count) = Float64.nan ∧
    Float64.lt Float64.nan inference.Threshold = false ∧
    (∀ (notExist : GoString → Bool) (readFile : GoString → Except GoString GoString)
        (p : Parsed) (config : InferConfiguration),
        ParseInferfile (.ok p) notExist readFile = .ok config →
          config.Files.map fileFrame = p.config.Files.map fileFrame) := by
  refine ⟨?_, ?_, Float64.lt_nan_left _, fileFrame_ParseInferfile⟩
  · unfold Execute
    simp only [h0, Int.toNat_zero, executeLoop, Float64.zero_div_zero, Float64.lt_nan_left]
    rfl
  · rw [h0]
    exact Float64.zero_div_zero

/-- Witness for C10: an inference decoded from an `infer` block without a
`count` attribute, with the threshold `1`. -/
theorem Execute_count_zero_passes_witness :
    Execute (verdictOracle []) { authInference with Count := 0, Threshold := Float64.ofInt 1 }
        (lit "CODE") = { passed := true, err := none, calls := 0 } :=
  (Execute_count_zero_passes (verdictOracle [])
    { authInference with Count := 0, Threshold := Float64.ofInt 1 } (lit "CODE") rfl).1

/-! ## Lemmas on the orchestrator -/

theorem countP_set (p : Worker → Bool) :
    ∀ (ws : List Worker) (i : Nat) (w w' : Worker), ws[i]? = some w →
      (ws.set i w').countP p + (if p w then 1 else 0) =
        ws.countP p + (if p w' then 1 else 0) := by
  intro ws
  induction ws with
  | nil => intro i w w' h; simp at h
  | cons a l ih =>
    intro i w w' h
    cases i with
    | zero =>
      simp only [List.getElem?_cons_zero, Option.some.injEq] at h
      subst h
      simp only [List.set_cons_zero, List.countP_cons]
      omega
    | succ i =>
      simp only [List.getElem?_cons_succ] at h
      have := ih i w w' h
      simp only [List.set_cons_succ, List.countP_cons]
      omega

theorem sent_eq_reporters (cfg : RunConfig) (ws : List Worker)
    (h : ws.all (fun w => w.pc = .done) = true) : sent cfg ws = reporters cfg ws := by
  induction ws with
  | nil => rfl
  | cons w l ih =>
    simp only [List.all_cons, Bool.and_eq_true, decide_eq_true_eq] at h
    have hl := ih h.2
    unfold sent reporters at hl ⊢
    simp only [List.countP_cons, hl, h.1, decide_True, Bool.true_and]

theorem workerStep_spec (cfg : RunConfig) (w w' : Worker) (semaphore semaphore' : Nat)
    (errChan errChan' : List GoString)
    (h : workerStep cfg w semaphore errChan = some (w', semaphore', errChan')) :
    reports cfg w' = reports cfg w ∧ w.pc ≠ .done ∧
      ((w'.pc ≠ .done ∧ errChan' = errChan) ∨
       (w'.pc = .done ∧ reports cfg w = false ∧ errChan' = errChan) ∨
       (w'.pc = .done ∧ reports cfg w = true ∧ errChan.length < cfg.errChanCap ∧
          errChan'.length = errChan.length + 1)) := by
  unfold workerStep at h
  cases hpc : w.pc with
  | acquire =>
    simp only [hpc] at h
    split at h
    · simp only [Option.some.injEq, Prod.mk.injEq] at h
      obtain ⟨rfl, _, rfl⟩ := h
      exact ⟨rfl, by simp, Or.inl ⟨by simp, rfl⟩⟩
    · simp at h
  | execute =>
    simp only [hpc, Option.some.injEq, Prod.mk.injEq] at h
    obtain ⟨rfl, _, rfl⟩ := h
    exact ⟨rfl, by simp, Or.inl ⟨by simp, rfl⟩⟩
  | release =>
    simp only [hpc, Option.some.injEq, Prod.mk.injEq] at h
    obtain ⟨rfl, _, rfl⟩ := h
    exact ⟨rfl, by simp, Or.inl ⟨by simp, rfl⟩⟩
  | report =>
    simp only [hpc] at h
    cases hr : reportOf w.inference (cfg.exec w.id w.inference w.code) with
    | none =>
      simp only [hr, Option.some.injEq, Prod.mk.injEq] at h
      obtain ⟨rfl, _, rfl⟩ := h
      exact ⟨rfl, by simp, Or.inr (Or.inl ⟨rfl, by simp [reports, hr], rfl⟩)⟩
    | some err =>
      simp only [hr] at h
      split at h
      · rename_i hlt
        simp only [Option.some.injEq, Prod.mk.injEq] at h
        obtain ⟨rfl, _, rfl⟩ := h
        exact ⟨rfl, by simp, Or.inr (Or.inr ⟨rfl, by simp [reports, hr], hlt, by simp⟩)⟩
      · simp at h
  | done => simp [hpc] at h

theorem step_worker (cfg : RunConfig) (s s' : RunState) (i : Nat)
    (h : step cfg s (some i) = some s') :
    ∃ w w' semaphore errChan, s.workers[i]? = some w ∧
      workerStep cfg w s.semaphore s.errChan = some (w', semaphore, errChan) ∧
      s' = { s with workers := s.workers.set i w', semaphore := semaphore,
                    errChan := errChan } := by
  simp only [step] at h
  split at h
  · simp at h
  · rename_i w hw
    split at h
    · simp at h
    · rename_i w' semaphore errChan hws
      simp only [Option.some.injEq] at h
      exact ⟨w, w', semaphore, errChan, (List.get?_eq_getElem? _ _).symm.trans hw, hws, h.symm⟩

theorem step_blocking (cfg : RunConfig) (s s' : RunState) (choice : Option Nat)
    (hstep : step cfg s choice = some s') (hinv : Blocking cfg s) : Blocking cfg s' := by
  obtain ⟨hmain, hsent, hcap, hR⟩ := hinv
  cases choice with
  | none =>
    simp only [step, hmain] at hstep
    split at hstep
    · rename_i hall
      have := sent_eq_reporters cfg s.workers hall
      omega
    · simp at hstep
  | some i =>
    obtain ⟨w, w', semaphore', errChan', hw, hws, rfl⟩ := step_worker cfg s s' i hstep
    obtain ⟨hrep, hnd, hcases⟩ := workerStep_spec cfg w w' _ _ _ _ hws
    have hcount := countP_set (reports cfg) s.workers i w w' hw
    have hsentc := countP_set (fun w => decide (w.pc = .done) && reports cfg w)
      s.workers i w w' hw
    simp only [hrep] at hcount
    simp only [hnd, decide_False, Bool.false_and, hrep] at hsentc
    unfold Blocking sent reporters
    unfold sent at hsent
    unfold reporters at hR
    simp only
    refine ⟨hmain, ?_, ?_, by omega⟩
    · rcases hcases with ⟨hpc, rfl⟩ | ⟨hpc, hr, rfl⟩ | ⟨hpc, hr, _, hlen⟩
      · simp only [hpc, decide_False, Bool.false_and] at hsentc
        simp at hsentc
        omega
      · simp only [hpc, hr] at hsentc
        simp at hsentc
        omega
      · simp only [hpc, hr] at hsentc
        simp at hsentc
        omega
    · rcases hcases with ⟨_, rfl⟩ | ⟨_, _, rfl⟩ | ⟨_, _, hlt, hlen⟩
      · exact hcap
      · exact hcap
      · omega

theorem run_blocking (cfg : RunConfig) (schedule : List (Option Nat)) :
    ∀ s s', run cfg s schedule = some s' → Blocking cfg s → Blocking cfg s' := by
  induction schedule with
  | nil =>
    intro s s' h hinv
    simp only [run, Option.some.injEq] at h
    subst h
    exact hinv
  | cons choice schedule ih =>
    intro s s' h hinv
    simp only [run] at h
    cases hs : step cfg s choice with
    | none => simp [hs] at h
    | some s1 =>
      simp only [hs] at h
      exact ih s1 s' h (step_blocking cfg s s1 choice hs hinv)

theorem sent_spawn (cfg : RunConfig) (us : List (Inference × GoString)) :
    ∀ n, sent cfg (spawn n us) = 0 := by
  induction us with
  | nil => intro n; rfl
  | cons u us ih =>
    intro n
    obtain ⟨inference, code⟩ := u
    have := ih (n + 1)
    unfold sent at this ⊢
    simp only [spawn, List.countP_cons, this]
    simp

theorem main_never_returns (config : InferConfiguration) (parallelThreads : Nat)
    (exec : Nat → Inference → GoString → ExecResult)
    (hmore : config.Files.length <
      reporters (runConfig config parallelThreads exec) (initState config).workers)
    (schedule : List (Option Nat)) (s : RunState)
    (hrun : run (runConfig config parallelThreads exec) (initState config) schedule = some s) :
    s.main = .waiting :=
  (run_blocking _ schedule _ s hrun
    ⟨rfl, sent_spawn _ _ 0, Nat.zero_le _, hmore⟩).1

/-! ## The orchestrator -/

/-- C4 (fails on the code): one file whose tag holds two inferences that both
fail. Whatever the parallelism and the schedule, the main goroutine of
`runInference` never gets past `wg.Wait()`; with `parallelThreads = 1` the
run reaches a state in which the first worker has reported, the second is
blocked sending on the full `errChan`, and no goroutine can move. -/
theorem runInference_two_failures_in_one_file_block :
    (∀ (parallelThreads : Nat) (schedule : List (Option Nat)) (s : RunState),
        run (runConfig twoInferences parallelThreads allFail) (initState twoInferences)
          schedule = some s → s.main = .waiting) ∧
    (∃ (schedule : List (Option Nat)) (s : RunState),
        run (runConfig twoInferences 1 allFail) (initState twoInferences) schedule = some s ∧
        Deadlocked (runConfig twoInferences 1 allFail) s) := by
  constructor
  · intro parallelThreads schedule s h
    exact main_never_returns twoInferences parallelThreads allFail
      (by show (1 : Nat) < 2; decide) schedule s h
  · refine ⟨[some 0, some 0, some 0, some 0, some 1, some 1, some 1], _, rfl, rfl, ?_⟩
    intro choice
    match choice with
    | none => rfl
    | some 0 => rfl
    | some 1 => rfl
    | some (n + 2) => rfl

end Infer
